import Mathlib

/-!
Shallow embedding, in Lean 4, of the parts of the `collab_hub` repository
(a collaborative code editor) that the verified claims are about:

* `Buffer` (src/components_lib/src/editor/editor_core/buffer.rs) — a
  rope-backed text buffer with character-indexed `insert`/`delete`,
  line lookup and modification tracking.  The rope (the external `ropey`
  crate) is modelled as a `List Char` together with `ropey`'s documented
  line semantics under its default `unicode_lines` feature: the number
  of lines is the number of line breaks plus one, a line break is any of
  LF, VT, FF, CR, NEL, LS, PS — with CRLF counting as a single break —
  and `Rope::line` returns a line *including* its terminating break.
* `Theme.get_color` (src/components_lib/src/core/themes.rs).
* `SyntaxHighlighter` (src/apps/code_editor/src/highlighter.rs) — a
  per-line highlighter producing HTML-ish span markup.
* the cursor recomputation of `update_cursor`
  (src/components_lib/src/text_editing/editor/editor_view.rs).

Strings of the Rust code are modelled as `List Char` (sequences of
Unicode scalar values); where the Rust code indexes *bytes* of a UTF-8
string (the `&line[i..]` slice in `highlight_line`, and the
`text[..selection_start]` slice with byte-index `rfind` in
`update_cursor`), the byte structure is modelled explicitly via
`Char.utf8Size`, and a Rust panic (slicing at a non-character-boundary
byte index) is modelled as `Option.none`.  The `usize` addition of
`Buffer::delete`'s bounds check is modelled in `Buffer.delete_usize`,
whose `none` models the overflow panic.
-/

namespace CollabHub

/-! ## Buffer (buffer.rs, rope modelled from ropey's semantics) -/

/-- Model of `Buffer` from buffer.rs.  The `Arc<Rope>` is modelled as the
sequence of characters it holds (`Arc` sharing is irrelevant to value-level
behaviour; `insert`/`delete` clone the rope before editing). -/
structure Buffer where
  rope : List Char
  modified : Bool
  filename : Option String
deriving DecidableEq

/-- `Buffer::new` -/
def Buffer.new : Buffer := ⟨[], false, none⟩

/-- `Buffer::from_str` -/
def Buffer.from_str (content : List Char) (filename : Option String) : Buffer :=
  ⟨content, false, filename⟩

/-- `Buffer::insert`.  The Rust method mutates `self` and returns
`Result<(), String>`; we model it as returning the post-state together
with the result value.  On the out-of-bounds branch the Rust code touches
nothing, so the post-state is the receiver unchanged. -/
def Buffer.insert (b : Buffer) (char_idx : Nat) (text : List Char) :
    Buffer × Except String Unit :=
  if char_idx ≤ b.rope.length then
    ({ b with rope := b.rope.take char_idx ++ text ++ b.rope.drop char_idx,
              modified := true },
     Except.ok ())
  else
    (b, Except.error "Character index out of bounds")

/-- `Buffer::delete`: removes the character range
`[char_idx, char_idx + len)` (ropey `Rope::remove`). -/
def Buffer.delete (b : Buffer) (char_idx len : Nat) :
    Buffer × Except String Unit :=
  if char_idx + len ≤ b.rope.length then
    ({ b with rope := b.rope.take char_idx ++ b.rope.drop (char_idx + len),
              modified := true },
     Except.ok ())
  else
    (b, Except.error "Delete range out of bounds")

/-- The number of `usize` values on the 64-bit targets this code builds
for. -/
def USIZE : Nat := 2 ^ 64

/-- `Buffer::delete` with the `usize` arithmetic of its bounds check
`char_idx + len <= self.rope.len_chars()` made explicit.  When the sum
does not overflow, the method behaves as `Buffer.delete`.  When it
overflows, the program panics instead of returning: in a debug build the
addition itself panics, and in a release build the sum wraps — for the
overflowing inputs considered here the wrapped sum passes the check and
`Rope::remove` panics on an inverted range.  `none` models the panic. -/
def Buffer.delete_usize (b : Buffer) (char_idx len : Nat) :
    Option (Buffer × Except String Unit) :=
  if char_idx + len < USIZE then some (b.delete char_idx len) else none

/-- `Buffer::text` (ropey `Rope::to_string`). -/
def Buffer.text (b : Buffer) : String := b.rope.asString

/-- ropey's line-break set (default `unicode_lines` feature): LF, VT,
FF, CR, NEL (U+0085), LS (U+2028) and PS (U+2029); CRLF additionally
counts as a single break. -/
def isLineBreak (c : Char) : Bool :=
  c = '\n' || c = '\x0b' || c = '\x0c' || c = '\r' ||
  c = '\x85' || c = '\u2028' || c = '\u2029'

/-- The number of line breaks of a text under ropey's default semantics:
a CRLF pair is one break, every other `isLineBreak` character is one
break. -/
def countLineBreaks : List Char → Nat
  | [] => 0
  | [c] => if isLineBreak c then 1 else 0
  | c :: d :: rest =>
    if c = '\r' && d = '\n' then 1 + countLineBreaks rest
    else if isLineBreak c then 1 + countLineBreaks (d :: rest)
    else countLineBreaks (d :: rest)

/-- ropey's line decomposition: every line break (a CRLF pair, or a
single `isLineBreak` character) terminates a line and is part of it; the
final line is the (possibly empty) remainder after the last break.
`lineSegs l` is never empty; an empty text has the single line `[]`. -/
def lineSegs : List Char → List (List Char)
  | [] => [[]]
  | [c] => if isLineBreak c then [[c], []] else [[c]]
  | c :: d :: rest =>
    if c = '\r' && d = '\n' then (c :: [d]) :: lineSegs rest
    else if isLineBreak c then [c] :: lineSegs (d :: rest)
    else
      match lineSegs (d :: rest) with
      | [] => [[c]]
      | l :: ls => (c :: l) :: ls

/-- `Buffer::line_count` (ropey `Rope::len_lines`): number of line breaks
plus one. -/
def Buffer.line_count (b : Buffer) : Nat := countLineBreaks b.rope + 1

/-- `Buffer::line` (ropey `Rope::line(idx).to_string()` behind the bounds
check of buffer.rs): the `idx`-th line *including* its terminating line
break, `none` if `idx` is at least the number of lines. -/
def Buffer.line (b : Buffer) (idx : Nat) : Option String :=
  if idx < b.line_count then
    some ((lineSegs b.rope).getD idx []).asString
  else
    none

-- `Buffer::filename` is modelled by the `filename` field itself (the Rust
-- method returns a reference to the field).

/-- `Buffer::is_modified` -/
def Buffer.is_modified (b : Buffer) : Bool := b.modified

/-! ## Cursor position (editor_view.rs, `update_cursor`) -/

/-- `CursorPosition` from editor_view.rs: absolute offset plus derived
line and column. -/
structure CursorPosition where
  offset : Nat
  line : Nat
  column : Nat
deriving DecidableEq

/-- The character index of the last `'\n'` of a list, if any (the value
Rust's `str::rfind('\n')` yields on a single-byte string; used to state
the ASCII case of the theorems below). -/
def rfindNl : List Char → Option Nat
  | [] => none
  | c :: rest =>
    match rfindNl rest with
    | some p => some (p + 1)
    | none => if c = '\n' then some 0 else none

/-- Model of the Rust byte slice `text[..selection_start]` of a UTF-8
`&str`: take `selection_start` *bytes*; `none` models the panic raised
when the index is not on a character boundary or exceeds the byte
length. -/
def byteTake : List Char → Nat → Option (List Char)
  | _, 0 => some []
  | [], _ + 1 => none
  | c :: rest, i + 1 =>
    if c.utf8Size ≤ i + 1 then
      (byteTake rest (i + 1 - c.utf8Size)).map (c :: ·)
    else none

/-- Model of Rust `str::rfind('\n')` on a UTF-8 string: the *byte* index
of the last `'\n'`, if any. -/
def rfindNlByte : List Char → Option Nat
  | [] => none
  | c :: rest =>
    match rfindNlByte rest with
    | some p => some (c.utf8Size + p)
    | none => if c = '\n' then some 0 else none

/-- The cursor recomputation of `update_cursor` in editor_view.rs:
`line = text[..selection_start].matches('\n').count()` and
`column = selection_start - (text[..selection_start].rfind('\n').map(p => p+1) or 0)`.
Rust slices `text[..selection_start]` by *bytes* and `rfind` returns a
byte index, so the model takes a byte prefix (`none` models the panic on
a non-boundary index) and computes the column as a byte difference. -/
def update_cursor (text : List Char) (selection_start : Nat) :
    Option CursorPosition :=
  match byteTake text selection_start with
  | none => none
  | some pre =>
    some { offset := selection_start,
           line := pre.count '\n',
           column := selection_start -
             (match rfindNlByte pre with
              | some p => p + 1
              | none => 0) }

/-! ## Theme (themes.rs) -/

/-- `UiColors` from themes.rs. -/
structure UiColors where
  toolbar_bg : String
  toolbar_fg : String
  statusbar_bg : String
  statusbar_fg : String
  button : String
  button_hover : String
  button_active : String
deriving DecidableEq

/-- `Theme` from themes.rs.  The `HashMap<String, String>` of syntax
colors is modelled as an association list with `HashMap::get` as
`List.lookup` (all maps built by this code have distinct keys). -/
structure Theme where
  name : String
  background : String
  foreground : String
  selection : String
  cursor : String
  line_highlight : String
  syntax_colors : List (String × String)
  ui : UiColors
deriving DecidableEq

/-- `Theme::get_color`: the six known token classes fall back to
hardcoded per-class colors when missing from `syntax_colors`; any other
token class name yields the theme's foreground color. -/
def Theme.get_color (t : Theme) (token_type : String) : String :=
  match token_type with
  | "keyword" => (t.syntax_colors.lookup "keyword").getD "#C678DD"
  | "string" => (t.syntax_colors.lookup "string").getD "#98C379"
  | "comment" => (t.syntax_colors.lookup "comment").getD "#7F848E"
  | "function" => (t.syntax_colors.lookup "function").getD "#61AFEF"
  | "type" => (t.syntax_colors.lookup "type").getD "#E5C07B"
  | "number" => (t.syntax_colors.lookup "number").getD "#D19A66"
  | _ => t.foreground

/-- `Theme::default` ("Default Dark") from themes.rs. -/
def Theme.default : Theme :=
  { name := "Default Dark",
    background := "#282C34",
    foreground := "#ABB2BF",
    selection := "#3E4451",
    cursor := "#528BFF",
    line_highlight := "#2C313A",
    syntax_colors :=
      [("keyword", "#C678DD"), ("string", "#98C379"),
       ("comment", "#7F848E"), ("function", "#61AFEF"),
       ("type", "#E5C07B")],
    ui :=
      { toolbar_bg := "#21252B", toolbar_fg := "#ABB2BF",
        statusbar_bg := "#21252B", statusbar_fg := "#9DA5B4",
        button := "#3A3F4B", button_hover := "#4B5263",
        button_active := "#528BFF" } }

/-- A theme whose syntax-color table is empty (used to exercise the
fallback paths of `get_color`). -/
def Theme.bare : Theme := { Theme.default with syntax_colors := [] }

/-! ## Syntax highlighter (highlighter.rs) -/

/-- `SyntaxHighlighter` from highlighter.rs.  `SyntaxHighlighter::new`
always builds the same `keyword_patterns` map, so the map is modelled as
the global constant `keyword_patterns` below. -/
structure SyntaxHighlighter where
  language : String
  theme : Theme

/-- `SyntaxHighlighter::new` (the `keyword_patterns` field it fills is
the constant below). -/
def SyntaxHighlighter.new (language : String) (theme : Theme) :
    SyntaxHighlighter :=
  ⟨language, theme⟩

/-- The `keyword_patterns` map built by `SyntaxHighlighter::new`. -/
def keyword_patterns : List (String × List String) :=
  [("rust",
    ["fn", "let", "mut", "pub", "impl", "struct", "enum", "trait", "use",
     "mod", "match", "if", "else", "for", "while", "loop", "return",
     "self", "super", "where"]),
   ("javascript",
    ["function", "var", "let", "const", "class", "import", "export",
     "from", "return", "if", "else", "for", "while", "switch", "case",
     "default", "break", "continue"])]

/-- Model of Rust `char::is_alphanumeric` (Unicode Alphabetic or Nd).
Exact on ASCII; among non-ASCII code points the model lists the letters
appearing in the concrete inputs used here (`'é'`).  The general theorems
below do not depend on how non-ASCII code points are classified. -/
def rustIsAlphanumeric (c : Char) : Bool :=
  if c.toNat < 128 then c.isAlpha || c.isDigit else c = 'é'

/-- Model of Rust `str::trim` (strips White_Space from both ends; the
model uses `Char.isWhitespace`, which covers the whitespace appearing in
this code base). -/
def rustTrim (l : List Char) : List Char :=
  ((l.dropWhile Char.isWhitespace).reverse.dropWhile Char.isWhitespace).reverse

/-- Exponent suffix of Rust's `f64::from_str` grammar:
empty, or `e`/`E`, an optional sign, and at least one ASCII digit. -/
def expOk : List Char → Bool
  | [] => true
  | c :: r =>
    if c = 'e' || c = 'E' then
      let r' : List Char :=
        match r with
        | '+' :: rr => rr
        | '-' :: rr => rr
        | rr => rr
      !r'.isEmpty && r'.all Char.isDigit
    else false

/-- Decimal-number part of Rust's `f64::from_str` grammar: digits with an
optional fractional part (at least one digit in total) and an optional
exponent. -/
def decNumberOk (w : List Char) : Bool :=
  let intPart := w.takeWhile Char.isDigit
  let r1 := w.dropWhile Char.isDigit
  match r1 with
  | '.' :: r2 =>
    let fracPart := r2.takeWhile Char.isDigit
    let r3 := r2.dropWhile Char.isDigit
    decide (0 < intPart.length + fracPart.length) && expOk r3
  | r => !intPart.isEmpty && expOk r

/-- Model of Rust `word.parse::<f64>().is_ok()`: an optional sign, then
`inf`/`infinity`/`nan` (ASCII case-insensitive) or a decimal number. -/
def parseF64Ok (w : List Char) : Bool :=
  let w' : List Char :=
    match w with
    | '+' :: r => r
    | '-' :: r => r
    | r => r
  let lw := (w'.map Char.toLower).asString
  if lw = "inf" || lw = "infinity" || lw = "nan" then true
  else decNumberOk w'

/-- Model of the Rust byte slice `&line[i..]` of a UTF-8 `&str`: drop `i`
*bytes*; `none` models the panic raised when `i` is not on a character
boundary or exceeds the byte length. -/
def byteDrop : List Char → Nat → Option (List Char)
  | l, 0 => some l
  | [], _ + 1 => none
  | c :: rest, i + 1 =>
    if c.utf8Size ≤ i + 1 then byteDrop rest (i + 1 - c.utf8Size) else none

/-- One run of output of `highlight_line`: either verbatim text pushed to
`result`, or text wrapped in a `<span style="color: …">…</span>`
annotation. -/
inductive Frag where
  | plain (s : List Char)
  | styled (color : String) (s : List Char)
deriving DecidableEq

/-- The text inside a fragment, i.e. the markup with the style
annotation removed. -/
def Frag.content : Frag → List Char
  | .plain s => s
  | .styled _ s => s

/-- Whether a fragment is a styled span. -/
def Frag.isStyled : Frag → Bool
  | .plain _ => false
  | .styled _ _ => true

/-- The markup text of one fragment, exactly as `highlight_line` pushes
it onto `result` (the styled case is the Rust format string
`<span style="color: {color}">{text}</span>`). -/
def renderFrag : Frag → String
  | .plain s => s.asString
  | .styled color s =>
    "<span style=\"color: " ++ color ++ "\">" ++ s.asString ++ "</span>"

/-- Concatenated markup of a line's fragments: the value of `result` at
the end of `highlight_line`. -/
def renderLine (fs : List Frag) : String :=
  String.join (fs.map renderFrag)

/-- Concatenated content of a list of fragments: the line's markup with
all style annotations removed. -/
def fragsContent (fs : List Frag) : List Char :=
  (fs.map Frag.content).flatten

/-- `SyntaxHighlighter::add_highlighted_word`: a keyword of the current
language becomes a keyword-colored span, a word parsing as `f64` becomes
a number-colored span, anything else is pushed verbatim.  The Rust method
pushes onto `result`; the model returns the pushed fragment. -/
def SyntaxHighlighter.add_highlighted_word (hl : SyntaxHighlighter)
    (word : List Char) : Frag :=
  let isKw : Bool :=
    match keyword_patterns.lookup hl.language with
    | some kws => kws.contains word.asString
    | none => false
  if isKw then Frag.styled (hl.theme.get_color "keyword") word
  else if parseF64Ok word then Frag.styled (hl.theme.get_color "number") word
  else Frag.plain word

/-- The `if !current_word.is_empty() { self.add_highlighted_word(…) }`
idiom of `highlight_line`. -/
def flushWord (hl : SyntaxHighlighter) (cw : List Char) (acc : List Frag) :
    List Frag :=
  if cw.isEmpty then acc else acc ++ [hl.add_highlighted_word cw]

/-- `i + 1 < chars.len() && chars[i + 1] == '/'` of `highlight_line`,
expressed on the remaining characters after position `i`. -/
def nextIsSlash : List Char → Bool
  | c2 :: _ => c2 = '/'
  | [] => false

/-- The `while i < chars.len()` loop of `highlight_line`.  `line` is the
full line (needed for the byte slice `&line[i..]`), the list argument is
the remaining characters `chars[i..]`, then the char index `i`, the
`in_string` flag, `current_word`, and the fragments pushed so far.  The
declared `in_comment` variable of the Rust code is constantly `false`, so
the first condition `c == '"' && !in_comment` is modelled as `c = '"'`.
`none` models a panic of the byte slice in the comment branch. -/
def SyntaxHighlighter.hlLoop (hl : SyntaxHighlighter) (line : List Char) :
    List Char → Nat → Bool → List Char → List Frag → Option (List Frag)
  | [], _, _, cw, acc => some (flushWord hl cw acc)
  | c :: rest, i, inString, cw, acc =>
    if c = '"' then
      if inString then
        hl.hlLoop line rest (i + 1) false []
          (acc ++ [Frag.styled (hl.theme.get_color "string") (cw ++ [c])])
      else
        hl.hlLoop line rest (i + 1) true [c] (flushWord hl cw acc)
    else if c = '/' ∧ nextIsSlash rest = true ∧ inString = false then
      match byteDrop line i with
      | some comment =>
        some (flushWord hl cw acc ++
          [Frag.styled (hl.theme.get_color "comment") comment])
      | none => none
    else if inString = true then
      hl.hlLoop line rest (i + 1) inString (cw ++ [c]) acc
    else if rustIsAlphanumeric c = true ∨ c = '_' then
      hl.hlLoop line rest (i + 1) inString (cw ++ [c]) acc
    else
      if c = '(' ∨ c = ')' ∨ c = '\x7b' ∨ c = '\x7d' ∨ c = '[' ∨ c = ']' then
        hl.hlLoop line rest (i + 1) inString []
          (flushWord hl cw acc ++
            [Frag.styled (hl.theme.get_color "bracket") [c]])
      else
        hl.hlLoop line rest (i + 1) inString []
          (flushWord hl cw acc ++ [Frag.plain [c]])

/-- `SyntaxHighlighter::highlight_line`, producing the line's fragments
(its markup string is `renderLine` of them): a line whose trimmed text
starts with `//` is one comment-colored span; otherwise the character
loop runs.  `none` models a panic. -/
def SyntaxHighlighter.highlight_line (hl : SyntaxHighlighter)
    (line : List Char) : Option (List Frag) :=
  if ['/', '/'].isPrefixOf (rustTrim line) then
    some [Frag.styled (hl.theme.get_color "comment") line]
  else
    hl.hlLoop line line 0 false [] []

/-- Rust `text.split('\n')`: the segments between line breaks, with the
breaks removed; an empty text yields one empty segment. -/
def splitNl : List Char → List (List Char)
  | [] => [[]]
  | c :: rest =>
    if c = '\n' then [] :: splitNl rest
    else
      match splitNl rest with
      | [] => [[c]]
      | l :: ls => (c :: l) :: ls

/-- The `for line in lines` loop of `SyntaxHighlighter::highlight`, at
fragment granularity: highlight each line in order; a panic anywhere
aborts the whole call. -/
def SyntaxHighlighter.highlightLines (hl : SyntaxHighlighter) :
    List (List Char) → Option (List (List Frag))
  | [] => some []
  | l :: ls =>
    match hl.highlight_line l, hl.highlightLines ls with
    | some f, some fs => some (f :: fs)
    | _, _ => none

/-- `SyntaxHighlighter::highlight` at fragment granularity: split on
`'\n'` and highlight each line. -/
def SyntaxHighlighter.highlightFrags (hl : SyntaxHighlighter)
    (text : List Char) : Option (List (List Frag)) :=
  hl.highlightLines (splitNl text)

/-- `SyntaxHighlighter::highlight`: the markup of every line followed by
`"\n"` (the code pushes `"\n"` after *every* line, the last included).
`none` models a panic. -/
def SyntaxHighlighter.highlight (hl : SyntaxHighlighter)
    (text : List Char) : Option String :=
  (hl.highlightFrags text).map fun lns =>
    String.join (lns.map fun fs => renderLine fs ++ "\n")

/-- The output of `highlight` with all style annotations removed: the
content of every line's fragments, each line followed by `'\n'`. -/
def stripLines (lns : List (List Frag)) : List Char :=
  (lns.map fun fs => fragsContent fs ++ ['\n']).flatten

/-- The highlighter instance `SyntaxHighlighter::new("rust", Theme::default())`
used for concrete evaluations. -/
def hlRust : SyntaxHighlighter := SyntaxHighlighter.new "rust" Theme.default

/-! ## Facts about `lineSegs` -/

theorem lineSegs_ne_nil (l : List Char) : lineSegs l ≠ [] := by
  induction l using lineSegs.induct with
  | case1 => simp [lineSegs]
  | case2 c h => simp [lineSegs, h]
  | case3 c h => simp [lineSegs, h]
  | case4 c d rest h ih => simp [lineSegs, h]
  | case5 c d rest h hb ih => simp [lineSegs, h, hb]
  | case6 c d rest h hb hnil ih => exact absurd hnil ih
  | case7 c d rest h hb l0 ls hcons ih => simp [lineSegs, h, hb, hcons]

theorem lineSegs_length (l : List Char) :
    (lineSegs l).length = countLineBreaks l + 1 := by
  induction l using lineSegs.induct with
  | case1 => simp [lineSegs, countLineBreaks]
  | case2 c h => simp [lineSegs, countLineBreaks, h]
  | case3 c h => simp [lineSegs, countLineBreaks, h]
  | case4 c d rest h ih =>
    simp [lineSegs, countLineBreaks, h, ih]
    omega
  | case5 c d rest h hb ih =>
    simp [lineSegs, countLineBreaks, h, hb, ih]
    omega
  | case6 c d rest h hb hnil ih => exact absurd hnil (lineSegs_ne_nil _)
  | case7 c d rest h hb l0 ls hcons ih =>
    rw [hcons] at ih
    simp only [List.length_cons] at ih
    simp [lineSegs, countLineBreaks, h, hb, hcons]
    omega

theorem lineSegs_join (l : List Char) : (lineSegs l).flatten = l := by
  induction l using lineSegs.induct with
  | case1 => simp [lineSegs]
  | case2 c h => simp [lineSegs, h]
  | case3 c h => simp [lineSegs, h]
  | case4 c d rest h ih =>
    have hcd : c = '\r' ∧ d = '\n' := by simpa using h
    simp [lineSegs, h, ih, hcd.1, hcd.2]
  | case5 c d rest h hb ih => simp [lineSegs, h, hb, ih]
  | case6 c d rest h hb hnil ih => exact absurd hnil (lineSegs_ne_nil _)
  | case7 c d rest h hb l0 ls hcons ih =>
    rw [hcons] at ih
    simp only [List.flatten_cons] at ih
    simp [lineSegs, h, hb, hcons, ih]

theorem lineSegs_getLast (l : List Char) :
    ∀ i : Nat, i + 1 < (lineSegs l).length →
      ∃ e, ((lineSegs l).getD i []).getLast? = some e ∧
        isLineBreak e = true := by
  induction l using lineSegs.induct with
  | case1 => intro i h; simp [lineSegs] at h
  | case2 c h =>
    intro i hi
    have hseg : lineSegs [c] = [[c], []] := by simp [lineSegs, h]
    rw [hseg] at hi ⊢
    simp only [List.length_cons, List.length_nil] at hi
    match i with
    | 0 => exact ⟨c, by simp, h⟩
    | i + 1 => omega
  | case3 c h => intro i hi; simp [lineSegs, h] at hi
  | case4 c d rest h ih =>
    intro i hi
    have hcd : c = '\r' ∧ d = '\n' := by simpa using h
    have hseg : lineSegs (c :: d :: rest) = [c, d] :: lineSegs rest := by
      simp [lineSegs, h]
    rw [hseg] at hi ⊢
    simp only [List.length_cons] at hi
    match i with
    | 0 => exact ⟨d, by simp, by simp [hcd.2, isLineBreak]⟩
    | i + 1 =>
      obtain ⟨e, he, hbe⟩ := ih i (by omega)
      refine ⟨e, ?_, hbe⟩
      simpa using he
  | case5 c d rest h hb ih =>
    intro i hi
    have hseg : lineSegs (c :: d :: rest) = [c] :: lineSegs (d :: rest) := by
      simp [lineSegs, h, hb]
    rw [hseg] at hi ⊢
    simp only [List.length_cons] at hi
    match i with
    | 0 => exact ⟨c, by simp, hb⟩
    | i + 1 =>
      obtain ⟨e, he, hbe⟩ := ih i (by omega)
      refine ⟨e, ?_, hbe⟩
      simpa using he
  | case6 c d rest h hb hnil ih => exact absurd hnil (lineSegs_ne_nil _)
  | case7 c d rest h hb l0 ls hcons ih =>
    intro i hi
    have hseg : lineSegs (c :: d :: rest) = (c :: l0) :: ls := by
      simp [lineSegs, h, hb, hcons]
    rw [hseg] at hi ⊢
    simp only [List.length_cons] at hi
    match i with
    | 0 =>
      have hlen : 0 + 1 < (lineSegs (d :: rest)).length := by
        rw [hcons]; simp only [List.length_cons]; omega
      obtain ⟨e, he, hbe⟩ := ih 0 hlen
      rw [hcons] at he
      simp only [List.getD_cons_zero] at he ⊢
      rcases l0 with _ | ⟨d0, l0'⟩
      · simp at he
      · rw [List.getLast?_cons_cons]
        exact ⟨e, he, hbe⟩
    | i + 1 =>
      have hlen : (i + 1) + 1 < (lineSegs (d :: rest)).length := by
        rw [hcons]; simp only [List.length_cons]; omega
      obtain ⟨e, he, hbe⟩ := ih (i + 1) hlen
      rw [hcons] at he
      refine ⟨e, ?_, hbe⟩
      simp only [List.getD_cons_succ] at he ⊢
      exact he

/-! ## Facts about `rfindNl` -/

theorem rfindNl_eq_none_iff (l : List Char) : rfindNl l = none ↔ '\n' ∉ l := by
  induction l with
  | nil => simp [rfindNl]
  | cons c rest ih =>
    rw [rfindNl]
    rcases h : rfindNl rest with _ | p
    · rw [h] at ih
      by_cases hc : c = '\n'
      · simp [hc]
      · simp only [if_neg hc, List.mem_cons]
        constructor
        · intro _ hmem
          rcases hmem with h1 | h2
          · exact hc h1.symm
          · exact (ih.mp rfl) h2
        · intro _; trivial
    · rw [h] at ih
      simp only [List.mem_cons]
      constructor
      · intro hcontra; exact absurd hcontra (by simp)
      · intro hnot
        exact absurd (ih.mpr (fun hm => hnot (Or.inr hm))) (by simp [h])

theorem rfindNl_eq_last (l : List Char) :
    ∀ p : Nat, p < l.length → l.getD p ' ' = '\n' →
      (∀ c ∈ l.drop (p + 1), c ≠ '\n') → rfindNl l = some p := by
  induction l with
  | nil => intro p hp; simp at hp
  | cons c rest ih =>
    intro p hp hget hafter
    match p with
    | 0 =>
      simp only [List.getD_cons_zero] at hget
      have hrest : rfindNl rest = none := by
        rw [rfindNl_eq_none_iff]
        intro hm
        exact hafter '\n' (by simpa using hm) rfl
      rw [rfindNl, hrest]
      simp [hget]
    | q + 1 =>
      have hq : q < rest.length := by simpa using hp
      have hg : rest.getD q ' ' = '\n' := by simpa using hget
      have ha : ∀ d ∈ rest.drop (q + 1), d ≠ '\n' := by
        intro d hd
        exact hafter d (by simpa using hd)
      rw [rfindNl, ih q hq hg ha]

theorem byteTake_ascii (l : List Char) (h : ∀ c ∈ l, c.utf8Size = 1) :
    ∀ n ≤ l.length, byteTake l n = some (l.take n) := by
  induction l with
  | nil =>
    intro n hn
    simp only [List.length_nil, Nat.le_zero] at hn
    subst hn
    rfl
  | cons c rest ih =>
    intro n hn
    match n with
    | 0 => rfl
    | m + 1 =>
      have hc : c.utf8Size = 1 := h c (by simp)
      rw [byteTake, hc, if_pos (by omega)]
      have := ih (fun d hd => h d (by simp [hd])) m (by simpa using hn)
      simp [this]

theorem rfindNlByte_ascii (l : List Char) (h : ∀ c ∈ l, c.utf8Size = 1) :
    rfindNlByte l = rfindNl l := by
  induction l with
  | nil => rfl
  | cons c rest ih =>
    have hc : c.utf8Size = 1 := h c (by simp)
    have ih' := ih (fun d hd => h d (by simp [hd]))
    rw [rfindNlByte, rfindNl, ih']
    rcases hr : rfindNl rest with _ | p
    · rfl
    · simp [hc, Nat.add_comm]

/-! ## Claim theorems about the Buffer and the cursor -/

/-- C3: `insert(offset, t)` fails with the out-of-bounds error exactly when
`offset` exceeds the character length; otherwise it succeeds, the new text
is the first `offset` characters, then `t`, then the rest, and the buffer
is marked modified — also when `t` is empty, in which case the text is
unchanged but `is_modified` still becomes true. -/
theorem Buffer.insert_spec (b : Buffer) (off : Nat) (t : List Char) :
    ((b.insert off t).2 = Except.error "Character index out of bounds" ↔
      b.rope.length < off) ∧
    (off ≤ b.rope.length →
      (b.insert off t).2 = Except.ok () ∧
      (b.insert off t).1.text =
        (b.rope.take off ++ t ++ b.rope.drop off).asString ∧
      (b.insert off t).1.is_modified = true) ∧
    (t = [] → off ≤ b.rope.length →
      (b.insert off t).1.text = b.text ∧
      (b.insert off t).1.is_modified = true) := by
  unfold Buffer.insert
  by_cases h : off ≤ b.rope.length
  · rw [if_pos h]
    refine ⟨by simp; omega, fun _ => ⟨rfl, rfl, rfl⟩, fun ht _ => ⟨?_, rfl⟩⟩
    subst ht
    simp [Buffer.text]
  · rw [if_neg h]
    exact ⟨by simp; omega, fun hc => absurd hc h, fun _ hc => absurd hc h⟩

/-- Witness for C3 at a concrete buffer: inserting `"xy"` at offset 1 of
`"ab"` gives `"axyb"`, inserting `""` keeps the text but marks modified,
and offset 5 is rejected. -/
theorem Buffer.insert_spec_witness :
    (1 ≤ (Buffer.from_str ['a', 'b'] none).rope.length ∧
      ((Buffer.from_str ['a', 'b'] none).insert 1 ['x', 'y']).2 = Except.ok () ∧
      ((Buffer.from_str ['a', 'b'] none).insert 1 ['x', 'y']).1.text =
        (['a'] ++ ['x', 'y'] ++ ['b'] : List Char).asString ∧
      ((Buffer.from_str ['a', 'b'] none).insert 1 ['x', 'y']).1.is_modified =
        true) ∧
    (((Buffer.from_str ['a', 'b'] none).insert 1 []).1.text =
        (Buffer.from_str ['a', 'b'] none).text ∧
      ((Buffer.from_str ['a', 'b'] none).insert 1 []).1.is_modified = true) ∧
    (((Buffer.from_str ['a', 'b'] none).insert 5 ['x']).2 =
      Except.error "Character index out of bounds" ↔
      (Buffer.from_str ['a', 'b'] none).rope.length < 5) :=
  ⟨⟨by decide,
    by
      have h := (Buffer.insert_spec (Buffer.from_str ['a', 'b'] none) 1
        ['x', 'y']).2.1 (by decide)
      simpa using h⟩,
   (Buffer.insert_spec (Buffer.from_str ['a', 'b'] none) 1 []).2.2 rfl
     (by decide),
   (Buffer.insert_spec (Buffer.from_str ['a', 'b'] none) 5 ['x']).1⟩

/-- C4: deleting `cnt` characters at `off` and re-inserting the deleted
substring at the same offset restores the original text. -/
theorem Buffer.delete_insert_roundtrip (b : Buffer) (off cnt : Nat)
    (h : off + cnt ≤ b.rope.length) :
    (((b.delete off cnt).1).insert off ((b.rope.drop off).take cnt)).1.text
      = b.text := by
  have hofflen : off ≤ b.rope.length := by omega
  have htklen : (b.rope.take off).length = off := by
    simp [List.length_take]; omega
  unfold Buffer.delete
  rw [if_pos h]
  unfold Buffer.insert
  rw [if_pos (by simp [List.length_take, List.length_drop]; omega)]
  simp only [Buffer.text]
  congr 1
  rw [List.take_left' htklen, List.drop_left' htklen, ← List.drop_drop]
  rw [List.append_assoc, List.take_append_drop, List.take_append_drop]

/-- Witness for C4: deleting 2 characters of `"abcd"` at offset 1 and
re-inserting them restores `"abcd"`. -/
theorem Buffer.delete_insert_roundtrip_witness :
    1 + 2 ≤ (Buffer.from_str ['a', 'b', 'c', 'd'] none).rope.length ∧
    ((((Buffer.from_str ['a', 'b', 'c', 'd'] none).delete 1 2).1).insert 1
        (((Buffer.from_str ['a', 'b', 'c', 'd'] none).rope.drop 1).take
          2)).1.text
      = (Buffer.from_str ['a', 'b', 'c', 'd'] none).text :=
  ⟨by decide,
   Buffer.delete_insert_roundtrip (Buffer.from_str ['a', 'b', 'c', 'd'] none)
     1 2 (by decide)⟩

/-- C5 (counterexample): `delete` with `offset + count > length` does
*not* always return an out-of-bounds error: at `offset = usize::MAX`,
`count = 1` on an empty buffer the `usize` sum of the bounds check
overflows and the program panics (debug: the addition; release: the
wrapped sum `0` passes the check and `Rope::remove(MAX..0)` panics)
rather than returning the error. -/
theorem Buffer.oob_delete_overflow_cex :
    Buffer.new.rope.length < (USIZE - 1) + 1 ∧
    Buffer.new.delete_usize (USIZE - 1) 1 = none ∧
    Buffer.new.delete_usize (USIZE - 1) 1 ≠
      some (Buffer.new, Except.error "Delete range out of bounds") := by
  have hpos : 0 < USIZE := by norm_num [USIZE]
  have h1 : Buffer.new.rope.length < (USIZE - 1) + 1 := by
    simp only [Buffer.new, List.length_nil]
    omega
  have h2 : Buffer.new.delete_usize (USIZE - 1) 1 = none := by
    unfold Buffer.delete_usize
    rw [if_neg (by omega)]
  exact ⟨h1, h2, by rw [h2]; simp⟩

/-- C5 (amended): an out-of-range `insert`, and an out-of-range `delete`
whose `offset + count` does not overflow `usize`, return the
out-of-bounds error and leave the receiver entirely unchanged: `text`,
`line_count`, `is_modified` and `filename` all keep their previous
values (an overflowing delete panics instead, see the counterexample). -/
theorem Buffer.oob_edit_unchanged (b : Buffer) (oi od cnt : Nat)
    (t : List Char) (hi : b.rope.length < oi)
    (hd : b.rope.length < od + cnt) (hno : od + cnt < USIZE) :
    (b.insert oi t).2 = Except.error "Character index out of bounds" ∧
    (b.insert oi t).1.text = b.text ∧
    (b.insert oi t).1.line_count = b.line_count ∧
    (b.insert oi t).1.is_modified = b.is_modified ∧
    (b.insert oi t).1.filename = b.filename ∧
    b.delete_usize od cnt = some (b.delete od cnt) ∧
    (b.delete od cnt).2 = Except.error "Delete range out of bounds" ∧
    (b.delete od cnt).1.text = b.text ∧
    (b.delete od cnt).1.line_count = b.line_count ∧
    (b.delete od cnt).1.is_modified = b.is_modified ∧
    (b.delete od cnt).1.filename = b.filename := by
  unfold Buffer.delete_usize Buffer.insert Buffer.delete
  rw [if_neg (by omega), if_pos hno, if_neg (by omega)]
  exact ⟨rfl, rfl, rfl, rfl, rfl, rfl, rfl, rfl, rfl, rfl, rfl⟩

/-- Witness for C5: on the buffer `"ab"` (length 2), `insert` at offset 3
and `delete` of range `[1, 3)` (a non-overflowing sum) both fail and
change nothing. -/
theorem Buffer.oob_edit_unchanged_witness :
    ((Buffer.from_str ['a', 'b'] none).rope.length < 3 ∧
      (Buffer.from_str ['a', 'b'] none).rope.length < 1 + 2 ∧
      1 + 2 < USIZE) ∧
    ((Buffer.from_str ['a', 'b'] none).insert 3 ['x']).2 =
      Except.error "Character index out of bounds" ∧
    ((Buffer.from_str ['a', 'b'] none).insert 3 ['x']).1.text =
      (Buffer.from_str ['a', 'b'] none).text ∧
    (Buffer.from_str ['a', 'b'] none).delete_usize 1 2 =
      some ((Buffer.from_str ['a', 'b'] none).delete 1 2) ∧
    ((Buffer.from_str ['a', 'b'] none).delete 1 2).2 =
      Except.error "Delete range out of bounds" ∧
    ((Buffer.from_str ['a', 'b'] none).delete 1 2).1.is_modified =
      (Buffer.from_str ['a', 'b'] none).is_modified :=
  ⟨⟨by decide, by decide, by norm_num [USIZE]⟩,
   (Buffer.oob_edit_unchanged (Buffer.from_str ['a', 'b'] none) 3 1 2 ['x']
      (by decide) (by decide) (by norm_num [USIZE])).1,
   (Buffer.oob_edit_unchanged (Buffer.from_str ['a', 'b'] none) 3 1 2 ['x']
      (by decide) (by decide) (by norm_num [USIZE])).2.1,
   (Buffer.oob_edit_unchanged (Buffer.from_str ['a', 'b'] none) 3 1 2 ['x']
      (by decide) (by decide) (by norm_num [USIZE])).2.2.2.2.2.1,
   (Buffer.oob_edit_unchanged (Buffer.from_str ['a', 'b'] none) 3 1 2 ['x']
      (by decide) (by decide) (by norm_num [USIZE])).2.2.2.2.2.2.1,
   (Buffer.oob_edit_unchanged (Buffer.from_str ['a', 'b'] none) 3 1 2 ['x']
      (by decide) (by decide) (by norm_num [USIZE])).2.2.2.2.2.2.2.2.2.1⟩

/-- C10: a zero-length `delete` at any in-range offset succeeds, leaves
the text unchanged and sets `is_modified`, exactly like an empty insert. -/
theorem Buffer.delete_zero_spec (b : Buffer) (off : Nat)
    (h : off ≤ b.rope.length) :
    (b.delete off 0).2 = Except.ok () ∧
    (b.delete off 0).1.text = b.text ∧
    (b.delete off 0).1.is_modified = true := by
  unfold Buffer.delete
  rw [if_pos (by omega)]
  exact ⟨rfl, by simp [Buffer.text], rfl⟩

/-- Witness for C10 on the buffer `"ab"`, offset 1. -/
theorem Buffer.delete_zero_spec_witness :
    1 ≤ (Buffer.from_str ['a', 'b'] none).rope.length ∧
    ((Buffer.from_str ['a', 'b'] none).delete 1 0).2 = Except.ok () ∧
    ((Buffer.from_str ['a', 'b'] none).delete 1 0).1.text =
      (Buffer.from_str ['a', 'b'] none).text ∧
    ((Buffer.from_str ['a', 'b'] none).delete 1 0).1.is_modified = true :=
  ⟨by decide, Buffer.delete_zero_spec (Buffer.from_str ['a', 'b'] none) 1
    (by decide)⟩

/-- C2 (counterexample): on the buffer `"a\nb"`, `line 0` is `"a\n"` —
the terminator is *included* — contradicting the claim that `line`
returns the line without its terminator. -/
theorem Buffer.line_keeps_terminator_cex :
    (Buffer.from_str ['a', '\n', 'b'] none).line 0 =
      some (['a', '\n'] : List Char).asString ∧
    (Buffer.from_str ['a', '\n', 'b'] none).line 0 ≠
      some (['a'] : List Char).asString := by
  constructor
  · rfl
  · decide

/-- C2 (amended): `line i` is `none` exactly when `i ≥ line_count`, and
for `i < line_count` it returns the `i`-th line *including* its
terminating line break (a line break being any of ropey's default break
characters, CRLF counting as one): the lines concatenate back to the
full text, there are exactly `line_count` of them, and every line but
the last ends in a line-break character. -/
theorem Buffer.line_spec (b : Buffer) (i : Nat) :
    (b.line_count ≤ i → b.line i = none) ∧
    (i < b.line_count →
      b.line i = some ((lineSegs b.rope).getD i []).asString) ∧
    (lineSegs b.rope).flatten = b.rope ∧
    (lineSegs b.rope).length = b.line_count ∧
    (i + 1 < b.line_count →
      ∃ e, ((lineSegs b.rope).getD i []).getLast? = some e ∧
        isLineBreak e = true) := by
  refine ⟨fun h => ?_, fun h => ?_, lineSegs_join b.rope, ?_, fun h => ?_⟩
  · unfold Buffer.line
    rw [if_neg (by omega)]
  · unfold Buffer.line
    rw [if_pos h]
  · rw [lineSegs_length]; rfl
  · exact lineSegs_getLast b.rope i (by rw [lineSegs_length]; exact h)

/-- Witness for C2 (amended) on the buffer `"a\nb"`: line 0 is `"a\n"`
(terminator included), line 5 is `none`; also, `"a\r"` has two lines
(CR is a ropey line break). -/
theorem Buffer.line_spec_witness :
    (0 < (Buffer.from_str ['a', '\n', 'b'] none).line_count ∧
      (Buffer.from_str ['a', '\n', 'b'] none).line 0 =
        some ((lineSegs (Buffer.from_str ['a', '\n', 'b'] none).rope).getD 0
          []).asString) ∧
    ((Buffer.from_str ['a', '\n', 'b'] none).line_count ≤ 5 ∧
      (Buffer.from_str ['a', '\n', 'b'] none).line 5 = none) ∧
    (0 + 1 < (Buffer.from_str ['a', '\n', 'b'] none).line_count ∧
      ∃ e, ((lineSegs (Buffer.from_str ['a', '\n', 'b'] none).rope).getD 0
        []).getLast? = some e ∧ isLineBreak e = true) ∧
    (Buffer.from_str ['a', '\r'] none).line_count = 2 ∧
    (Buffer.from_str ['a', '\r'] none).line 0 =
      some (['a', '\r'] : List Char).asString :=
  ⟨⟨by decide, (Buffer.line_spec (Buffer.from_str ['a', '\n', 'b'] none)
      0).2.1 (by decide)⟩,
   ⟨by decide, (Buffer.line_spec (Buffer.from_str ['a', '\n', 'b'] none)
      5).1 (by decide)⟩,
   ⟨by decide, (Buffer.line_spec (Buffer.from_str ['a', '\n', 'b'] none)
      0).2.2.2.2 (by decide)⟩,
   by decide, by decide⟩

/-- C7 (counterexample): the code slices `text[..selection_start]` by
*bytes*, so at the claim's character offsets it departs from the claim on
multi-byte text: on `"éé\ncd"` at character offset 4 the byte prefix is
`"éé"` and the code yields `{offset := 4, line := 0, column := 4}`, while
the claim's formulas give line 1 (one line break among the first 4
characters) and column 1; on `"éa"` at offset 1 the slice splits the
two-byte `'é'` and the code panics. -/
theorem update_cursor_byte_cex :
    update_cursor ['é', 'é', '\n', 'c', 'd'] 4 = some ⟨4, 0, 4⟩ ∧
    ((['é', 'é', '\n', 'c', 'd'] : List Char).take 4).count '\n' = 1 ∧
    (⟨4, 0, 4⟩ : CursorPosition) ≠ ⟨4, 1, 1⟩ ∧
    update_cursor ['é', 'a'] 1 = none := by
  refine ⟨by decide, by decide, by decide, by decide⟩

/-- C7 (amended): for a text of single-byte (ASCII-range) characters —
where byte and character offsets coincide — and an offset within the
text, the recomputation succeeds and the cursor has `offset` itself,
`line` = the number of line breaks strictly before the offset, and
`column` = offset minus the index just after the last line break before
the offset (or 0 when there is none); on `"ab\ncd"` at offset 4 the
result is `{offset := 4, line := 1, column := 1}`. -/
theorem update_cursor_spec (text : List Char) (off : Nat)
    (hascii : ∀ c ∈ text, c.utf8Size = 1) (h : off ≤ text.length) :
    (∃ u, update_cursor text off = some u ∧
      u.offset = off ∧
      u.line = (text.take off).count '\n' ∧
      ((∀ c ∈ text.take off, c ≠ '\n') → u.column = off) ∧
      (∀ p : Nat, p < off → (text.take off).getD p ' ' = '\n' →
        (∀ c ∈ (text.take off).drop (p + 1), c ≠ '\n') →
        u.column = off - (p + 1))) ∧
    update_cursor ['a', 'b', '\n', 'c', 'd'] 4 = some ⟨4, 1, 1⟩ := by
  have hsub : ∀ c ∈ text.take off, c.utf8Size = 1 :=
    fun c hc => hascii c (List.take_subset off text hc)
  have hbt : byteTake text off = some (text.take off) :=
    byteTake_ascii text hascii off h
  have hrf : rfindNlByte (text.take off) = rfindNl (text.take off) :=
    rfindNlByte_ascii (text.take off) hsub
  have hlen : (text.take off).length = off := by
    simp [List.length_take]; omega
  have heq : update_cursor text off = some
      { offset := off,
        line := (text.take off).count '\n',
        column := off -
          (match rfindNl (text.take off) with
           | some p => p + 1
           | none => 0) } := by
    simp only [update_cursor, hbt, hrf]
  refine ⟨⟨_, heq, rfl, rfl, fun hno => ?_, fun p hp hget hafter => ?_⟩,
    by decide⟩
  · have hn : rfindNl (text.take off) = none := by
      rw [rfindNl_eq_none_iff]
      intro hm
      exact hno '\n' hm rfl
    simp [hn]
  · have hs : rfindNl (text.take off) = some p :=
      rfindNl_eq_last (text.take off) p (by omega) hget hafter
    simp [hs]

/-! ## Facts about the highlighter -/

theorem fragsContent_append (a b : List Frag) :
    fragsContent (a ++ b) = fragsContent a ++ fragsContent b := by
  simp [fragsContent]

theorem fragsContent_singleton (f : Frag) : fragsContent [f] = f.content := by
  simp [fragsContent]

theorem content_add_highlighted_word (hl : SyntaxHighlighter)
    (w : List Char) : (hl.add_highlighted_word w).content = w := by
  simp only [SyntaxHighlighter.add_highlighted_word]
  split_ifs <;> rfl

theorem fragsContent_flush (hl : SyntaxHighlighter) (cw : List Char)
    (acc : List Frag) :
    fragsContent (flushWord hl cw acc) = fragsContent acc ++ cw := by
  unfold flushWord
  by_cases h : cw.isEmpty = true
  · rw [if_pos h, List.isEmpty_iff.mp h]
    simp
  · rw [if_neg h, fragsContent_append, fragsContent_singleton,
      content_add_highlighted_word]

theorem byteDrop_ascii (l : List Char) (h : ∀ c ∈ l, c.utf8Size = 1) :
    ∀ n ≤ l.length, byteDrop l n = some (l.drop n) := by
  induction l with
  | nil =>
    intro n hn
    simp only [List.length_nil, Nat.le_zero] at hn
    subst hn
    rfl
  | cons c rest ih =>
    intro n hn
    match n with
    | 0 => rfl
    | m + 1 =>
      have hc : c.utf8Size = 1 := h c (by simp)
      rw [byteDrop, hc, if_pos (by omega)]
      have := ih (fun d hd => h d (by simp [hd])) m (by simpa using hn)
      simpa using this

theorem hlLoop_content (hl : SyntaxHighlighter) (line : List Char)
    (hascii : ∀ c ∈ line, c.utf8Size = 1) :
    ∀ (rest pre : List Char) (inString : Bool) (cw : List Char)
      (acc : List Frag), line = pre ++ rest →
      ∃ out, hl.hlLoop line rest pre.length inString cw acc = some out ∧
        fragsContent out = fragsContent acc ++ cw ++ rest := by
  intro rest
  induction rest with
  | nil =>
    intro pre inString cw acc hline
    refine ⟨flushWord hl cw acc, ?_, ?_⟩
    · rw [SyntaxHighlighter.hlLoop]
    · rw [fragsContent_flush]
      simp
  | cons c rest' ih =>
    intro pre inString cw acc hline
    have hline' : line = (pre ++ [c]) ++ rest' := by simp [hline]
    have hplen : (pre ++ [c]).length = pre.length + 1 := by simp
    rw [SyntaxHighlighter.hlLoop]
    by_cases h1 : c = '"'
    · rw [if_pos h1]
      by_cases h2 : inString = true
      · rw [if_pos h2]
        obtain ⟨out, hrec, hcnt⟩ := ih (pre ++ [c]) false []
          (acc ++ [Frag.styled (hl.theme.get_color "string") (cw ++ [c])])
          hline'
        rw [hplen] at hrec
        refine ⟨out, hrec, ?_⟩
        rw [hcnt, fragsContent_append, fragsContent_singleton]
        simp [Frag.content]
      · rw [if_neg h2]
        obtain ⟨out, hrec, hcnt⟩ := ih (pre ++ [c]) true [c]
          (flushWord hl cw acc) hline'
        rw [hplen] at hrec
        refine ⟨out, hrec, ?_⟩
        rw [hcnt, fragsContent_flush]
        simp
    · rw [if_neg h1]
      by_cases h2 : c = '/' ∧ nextIsSlash rest' = true ∧ inString = false
      · rw [if_pos h2]
        have hpre_le : pre.length ≤ line.length := by rw [hline]; simp
        have hbd : byteDrop line pre.length = some (line.drop pre.length) :=
          byteDrop_ascii line hascii pre.length hpre_le
        have hdrop : line.drop pre.length = c :: rest' := by
          rw [hline]
          exact List.drop_left pre (c :: rest')
        rw [hbd, hdrop]
        refine ⟨_, rfl, ?_⟩
        rw [fragsContent_append, fragsContent_flush, fragsContent_singleton]
        simp [Frag.content]
      · rw [if_neg h2]
        by_cases h3 : inString = true
        · rw [if_pos h3]
          obtain ⟨out, hrec, hcnt⟩ := ih (pre ++ [c]) inString (cw ++ [c])
            acc hline'
          rw [hplen] at hrec
          refine ⟨out, hrec, ?_⟩
          rw [hcnt]
          simp
        · rw [if_neg h3]
          by_cases h4 : rustIsAlphanumeric c = true ∨ c = '_'
          · rw [if_pos h4]
            obtain ⟨out, hrec, hcnt⟩ := ih (pre ++ [c]) inString (cw ++ [c])
              acc hline'
            rw [hplen] at hrec
            refine ⟨out, hrec, ?_⟩
            rw [hcnt]
            simp
          · rw [if_neg h4]
            by_cases h5 :
                c = '(' ∨ c = ')' ∨ c = '\x7b' ∨ c = '\x7d' ∨ c = '[' ∨
                  c = ']'
            · rw [if_pos h5]
              obtain ⟨out, hrec, hcnt⟩ := ih (pre ++ [c]) inString []
                (flushWord hl cw acc ++
                  [Frag.styled (hl.theme.get_color "bracket") [c]]) hline'
              rw [hplen] at hrec
              refine ⟨out, hrec, ?_⟩
              rw [hcnt, fragsContent_append, fragsContent_flush,
                fragsContent_singleton]
              simp [Frag.content]
            · rw [if_neg h5]
              obtain ⟨out, hrec, hcnt⟩ := ih (pre ++ [c]) inString []
                (flushWord hl cw acc ++ [Frag.plain [c]]) hline'
              rw [hplen] at hrec
              refine ⟨out, hrec, ?_⟩
              rw [hcnt, fragsContent_append, fragsContent_flush,
                fragsContent_singleton]
              simp [Frag.content]

theorem highlight_line_content (hl : SyntaxHighlighter) (line : List Char)
    (hascii : ∀ c ∈ line, c.utf8Size = 1) :
    ∃ out, hl.highlight_line line = some out ∧ fragsContent out = line := by
  unfold SyntaxHighlighter.highlight_line
  by_cases h : List.isPrefixOf ['/', '/'] (rustTrim line) = true
  · rw [if_pos h]
    refine ⟨_, rfl, ?_⟩
    rw [fragsContent_singleton]
    rfl
  · rw [if_neg h]
    have := hlLoop_content hl line hascii line [] false [] [] (by simp)
    simpa [fragsContent] using this

theorem splitNl_ne_nil (l : List Char) : splitNl l ≠ [] := by
  induction l with
  | nil => simp [splitNl]
  | cons c rest ih =>
    rw [splitNl]
    split
    · simp
    · split <;> simp

theorem splitNl_join (l : List Char) :
    ((splitNl l).map (fun s => s ++ ['\n'])).flatten = l ++ ['\n'] := by
  induction l with
  | nil => rfl
  | cons c rest ih =>
    rw [splitNl]
    by_cases hc : c = '\n'
    · simp [hc, ih]
    · simp only [if_neg hc]
      rcases h : splitNl rest with _ | ⟨l0, ls⟩
      · exact absurd h (splitNl_ne_nil rest)
      · rw [h] at ih
        simp only [List.map_cons, List.flatten_cons] at ih ⊢
        simp [← List.append_assoc, ih]

theorem splitNl_mem (l : List Char) :
    ∀ s ∈ splitNl l, ∀ c ∈ s, c ∈ l := by
  induction l with
  | nil =>
    intro s hs c hc
    simp only [splitNl, List.mem_singleton] at hs
    subst hs
    simp at hc
  | cons a rest ih =>
    intro s hs c hc
    rw [splitNl] at hs
    by_cases ha : a = '\n'
    · rw [if_pos ha] at hs
      simp only [List.mem_cons] at hs
      rcases hs with hs | hs
      · subst hs; simp at hc
      · exact List.mem_cons_of_mem a (ih s hs c hc)
    · rw [if_neg ha] at hs
      rcases h : splitNl rest with _ | ⟨l0, ls⟩
      · exact absurd h (splitNl_ne_nil rest)
      · rw [h] at hs
        simp only [List.mem_cons] at hs
        rcases hs with hs | hs
        · subst hs
          rcases List.mem_cons.mp hc with hc | hc
          · simp [hc]
          · have : c ∈ rest :=
              ih l0 (by rw [h]; exact List.mem_cons_self l0 ls) c hc
            exact List.mem_cons_of_mem a this
        · have : c ∈ rest :=
            ih s (by rw [h]; exact List.mem_cons_of_mem l0 hs) c hc
          exact List.mem_cons_of_mem a this

theorem highlightLines_content (hl : SyntaxHighlighter) :
    ∀ lines : List (List Char),
      (∀ l ∈ lines, ∀ c ∈ l, c.utf8Size = 1) →
      ∃ lns, hl.highlightLines lines = some lns ∧
        lns.map fragsContent = lines := by
  intro lines
  induction lines with
  | nil => intro _; exact ⟨[], rfl, rfl⟩
  | cons l ls ih =>
    intro h
    obtain ⟨f, hf, hfc⟩ :=
      highlight_line_content hl l (fun c hc => h l (by simp) c hc)
    obtain ⟨fs, hfs, hfsc⟩ := ih (fun l' hl' c hc => h l' (by simp [hl']) c hc)
    refine ⟨f :: fs, ?_, ?_⟩
    · rw [SyntaxHighlighter.highlightLines, hf, hfs]
    · simp [hfc, hfsc]

/-! ## Claim theorems about the theme and the highlighter -/

/-- C1 (failing input for the code bug): `highlight` on the three-character
input `é//` panics — `highlight_line` reaches the mid-line comment branch
with char index 1 and evaluates the byte slice `&line[1..]`, but byte 1 is
in the middle of the two-byte UTF-8 encoding of `'é'`.  The model returns
`none` (the panic), contradicting the spec's totality. -/
theorem highlight_panics_on_multibyte_comment :
    hlRust.highlight ['é', '/', '/'] = none := by decide

/-- C6 (counterexample): stripping the style annotations from
`highlight(text)` does *not* yield `text`: `highlight` pushes `"\n"` after
every line, the last included, so even for the empty input the stripped
output is `"\n"`, not `""`. -/
theorem highlight_strip_cex :
    hlRust.highlight [] = some "\n" ∧
    hlRust.highlightFrags [] = some [[]] ∧
    stripLines [[]] = ['\n'] ∧
    (['\n'] : List Char) ≠ [] := by
  refine ⟨rfl, rfl, rfl, by decide⟩

/-- C6 (amended): for every highlighter and every input text of
single-byte (ASCII-range) characters, `highlight` succeeds and removing
the style annotations from its output yields exactly the input text
followed by one extra line break. -/
theorem highlight_strip_spec (hl : SyntaxHighlighter) (text : List Char)
    (hascii : ∀ c ∈ text, c.utf8Size = 1) :
    ∃ lns, hl.highlightFrags text = some lns ∧
      stripLines lns = text ++ ['\n'] := by
  obtain ⟨lns, hlns, hc⟩ := highlightLines_content hl (splitNl text)
    (fun l hl' c hc => hascii c (splitNl_mem text l hl' c hc))
  refine ⟨lns, hlns, ?_⟩
  unfold stripLines
  calc (lns.map fun fs => fragsContent fs ++ ['\n']).flatten
      = ((lns.map fragsContent).map (fun s => s ++ ['\n'])).flatten := by
        rw [List.map_map]
        rfl
    _ = ((splitNl text).map (fun s => s ++ ['\n'])).flatten := by rw [hc]
    _ = text ++ ['\n'] := splitNl_join text

/-- Witness for C6 (amended) on the input `"ab"`: the stripped output is
`"ab\n"`. -/
theorem highlight_strip_spec_witness :
    (∀ c ∈ (['a', 'b'] : List Char), c.utf8Size = 1) ∧
    ∃ lns, hlRust.highlightFrags ['a', 'b'] = some lns ∧
      stripLines lns = ['a', 'b'] ++ ['\n'] :=
  ⟨by decide, highlight_strip_spec hlRust ['a', 'b'] (by decide)⟩

/-- C8: highlighting the line `he said "hi"` yields the quoted segment
`"hi"` — both quotes included — as exactly one string-colored span, with
`he said ` appearing unstyled before it and no other styled span. -/
theorem highlight_line_string_span :
    hlRust.highlight_line
        ['h', 'e', ' ', 's', 'a', 'i', 'd', ' ', '"', 'h', 'i', '"'] =
      some [Frag.plain ['h', 'e'], Frag.plain [' '],
        Frag.plain ['s', 'a', 'i', 'd'], Frag.plain [' '],
        Frag.styled (Theme.default.get_color "string")
          ['"', 'h', 'i', '"']] ∧
    ([Frag.plain ['h', 'e'], Frag.plain [' '],
        Frag.plain ['s', 'a', 'i', 'd'], Frag.plain [' '],
        Frag.styled (Theme.default.get_color "string")
          ['"', 'h', 'i', '"']].filter Frag.isStyled) =
      [Frag.styled "#98C379" ['"', 'h', 'i', '"']] ∧
    fragsContent ([Frag.plain ['h', 'e'], Frag.plain [' '],
        Frag.plain ['s', 'a', 'i', 'd'], Frag.plain [' '],
        Frag.styled (Theme.default.get_color "string")
          ['"', 'h', 'i', '"']].takeWhile (fun f => !f.isStyled)) =
      ['h', 'e', ' ', 's', 'a', 'i', 'd', ' '] := by
  refine ⟨by decide, by decide, by decide⟩

/-- C9 (counterexample): the highlighter queries the token class
`"number"`, which the default theme's `syntax_colors` table does not
contain; `get_color` then returns the hardcoded `"#D19A66"`, *not* the
theme's default foreground `"#ABB2BF"`. -/
theorem get_color_fallback_cex :
    (Theme.default.syntax_colors.lookup "number" = none) ∧
    Theme.default.get_color "number" = "#D19A66" ∧
    Theme.default.foreground = "#ABB2BF" ∧
    Theme.default.get_color "number" ≠ Theme.default.foreground := by
  refine ⟨rfl, rfl, rfl, by decide⟩

/-- C9 (amended): `get_color` is total, and for a token class missing
from the theme's table it falls back to the theme's foreground only for
`"bracket"`; the other classes the highlighter queries (`keyword`,
`string`, `comment`, `number`) fall back to fixed built-in colors. -/
theorem get_color_spec (t : Theme) :
    t.get_color "bracket" = t.foreground ∧
    (t.syntax_colors.lookup "keyword" = none →
      t.get_color "keyword" = "#C678DD") ∧
    (t.syntax_colors.lookup "string" = none →
      t.get_color "string" = "#98C379") ∧
    (t.syntax_colors.lookup "comment" = none →
      t.get_color "comment" = "#7F848E") ∧
    (t.syntax_colors.lookup "number" = none →
      t.get_color "number" = "#D19A66") :=
  ⟨rfl,
   fun h => by simp [Theme.get_color, h],
   fun h => by simp [Theme.get_color, h],
   fun h => by simp [Theme.get_color, h],
   fun h => by simp [Theme.get_color, h]⟩

/-- Witness for C9 (amended) on a theme with an empty syntax-color
table. -/
theorem get_color_spec_witness :
    (Theme.bare.syntax_colors.lookup "keyword" = none ∧
      Theme.bare.syntax_colors.lookup "number" = none) ∧
    Theme.bare.get_color "bracket" = Theme.bare.foreground ∧
    Theme.bare.get_color "keyword" = "#C678DD" ∧
    Theme.bare.get_color "number" = "#D19A66" :=
  ⟨⟨by decide, by decide⟩,
   (get_color_spec Theme.bare).1,
   (get_color_spec Theme.bare).2.1 (by decide),
   (get_color_spec Theme.bare).2.2.2.2 (by decide)⟩

/-- Witness for C7 (amended) on the all-ASCII text `"ab\ncd"` at offset
4: the recomputation succeeds with line 1 and column 1. -/
theorem update_cursor_spec_witness :
    (∀ c ∈ (['a', 'b', '\n', 'c', 'd'] : List Char), c.utf8Size = 1) ∧
    4 ≤ (['a', 'b', '\n', 'c', 'd'] : List Char).length ∧
    update_cursor ['a', 'b', '\n', 'c', 'd'] 4 = some ⟨4, 1, 1⟩ := by
  refine ⟨by decide, by decide, ?_⟩
  exact (update_cursor_spec ['a', 'b', '\n', 'c', 'd'] 4 (by decide)
    (by decide)).2

end CollabHub
